import Mathlib

/-!
Verification of the retention-policy engine of `cbn-data`.

This file shallowly embeds the decision core of `src/prune-data.mjs`
(`getBuildDate`, `toDayKey`, `applyRetentionPolicy`) and, for the
revision-comparison claim, the older millisecond-age revision of
`applyRetentionPolicy` found in the repository corpus
(`src/unnamed/part_002`), and proves the spec's testable properties
about them.

Modelling conventions:

* A JavaScript `Date` value is its millisecond timestamp, an `Int`.
  `new Date(created_at)` with an absent or unparsable `created_at`
  yields an invalid date (NaN); a record's `created_at` field is
  therefore modelled as `Option Int`: `some t` for a string that parses
  to timestamp `t`, `none` for an absent or unparsable one (the source
  treats both identically via its `Number.isNaN` guard).
* `prerelease` is modelled as `Option Bool`: `none` for an absent or
  `undefined` field.  The source tests `!b.prerelease`, i.e. JS
  falsiness, modelled by `jsTruthy`.
* `build_number` is `Option String`: `none` when absent or not a
  string (the source checks `typeof build_number === "string"`).
* Machine arithmetic: all JS numbers involved are integers well inside
  the exact (2^53) range, so they are modelled as `Int`.  `Math.floor`
  of an integer division is `Int.fdiv`.  A JS `x % m === 0` test on
  integers holds iff `m ∣ x`, which coincides with Lean's
  `x % m = 0` (`Int.emod`), for both positive and negative `x`.
* `Array.prototype.sort` with a numeric comparator is, per the
  ECMAScript spec, a stable sort; any stable sort with the same total
  preorder computes the same list, so it is modelled with Mathlib's
  stable `List.insertionSort`.
-/

/-- One day in milliseconds, `1000 * 60 * 60 * 24` in the source. -/
def ONE_DAY : Int := 1000 * 60 * 60 * 24

/-- A build record, with the fields the retention engine reads
(`src/prune-data.mjs`).  `extra` stands for the opaque payload fields
that pass through the engine untouched. -/
structure Build where
  build_number : Option String
  prerelease : Option Bool
  created_at : Option Int
  extra : Nat
deriving DecidableEq

/-- JS truthiness of the modelled `prerelease` field: only the boolean
`true` is truthy; `false`, absent and `undefined` are falsy. -/
def jsTruthy : Option Bool → Bool
  | some true => true
  | _ => false

/-- Value of a decimal digit string, used for the `YYYY-MM-DD` capture
of the date regex. -/
def digitsToNat (cs : List Char) : Nat :=
  cs.foldl (fun n c => n * 10 + (c.toNat - 48)) 0

/-- The regex `^(\d{4}-\d{2}-\d{2})` of `getBuildDate`: the first ten
characters must be four digits, a hyphen, two digits, a hyphen, two
digits; the rest of the string is arbitrary.  Returns the captured
year, month and day. -/
def matchLeadingDate : List Char → Option (Nat × Nat × Nat)
  | y1 :: y2 :: y3 :: y4 :: h1 :: m1 :: m2 :: h2 :: d1 :: d2 :: _ =>
    if y1.isDigit && y2.isDigit && y3.isDigit && y4.isDigit && h1 == '-' &&
        m1.isDigit && m2.isDigit && h2 == '-' && d1.isDigit && d2.isDigit then
      some (digitsToNat [y1, y2, y3, y4], digitsToNat [m1, m2], digitsToNat [d1, d2])
    else
      none
  | _ => none

/-- Gregorian leap-year test. -/
def isLeapYear (y : Nat) : Bool :=
  (y % 4 == 0 && y % 100 != 0) || y % 400 == 0

/-- Number of days in a month of the proleptic Gregorian calendar. -/
def daysInMonth (y m : Nat) : Nat :=
  if m == 2 then (if isLeapYear y then 29 else 28)
  else if m == 4 || m == 6 || m == 9 || m == 11 then 30
  else 31

/-- Whether `new Date("YYYY-MM-DDT00:00:00Z")` is a valid date: the
ECMAScript Date Time String Format rejects out-of-range month or day
components (yielding NaN). -/
def isValidYMD (y m d : Nat) : Bool :=
  1 ≤ m && m ≤ 12 && 1 ≤ d && d ≤ daysInMonth y m

/-- Days from the epoch 1970-01-01 to the civil date `y-m-d` in the
proleptic Gregorian calendar (the value `Date.UTC(y, m-1, d) / ONE_DAY`
computes). -/
def daysFromCivil (y m d : Int) : Int :=
  let yy := if m ≤ 2 then y - 1 else y
  let era := Int.fdiv yy 400
  let yoe := yy - era * 400
  let mp := if 2 < m then m - 3 else m + 9
  let doy := Int.fdiv (153 * mp + 2) 5 + d - 1
  let doe := yoe * 365 + Int.fdiv yoe 4 - Int.fdiv yoe 100 + doy
  era * 146097 + doe - 719468

/-- `getBuildDate` of `src/prune-data.mjs`: prefer a parsable
`created_at`; otherwise parse a leading `YYYY-MM-DD` of `build_number`
as UTC midnight; otherwise `null`. -/
def getBuildDate (b : Build) : Option Int :=
  match b.created_at with
  | some createdAt => some createdAt
  | none =>
    match b.build_number with
    | some s =>
      match matchLeadingDate s.data with
      | some (y, m, d) =>
        if isValidYMD y m d then
          some (daysFromCivil (Int.ofNat y) (Int.ofNat m) (Int.ofNat d) * 86400000)
        else none
      | none => none
    | none => none

/-- `Date.UTC(date.getUTCFullYear(), date.getUTCMonth(),
date.getUTCDate())`: the timestamp truncated down to UTC midnight of
its calendar day. -/
def utcMidnight (t : Int) : Int :=
  Int.fdiv t 86400000 * 86400000

/-- `toDayKey` of `src/prune-data.mjs`:
`Math.floor(Date.UTC(...) / dayMs)`. -/
def toDayKey (t : Int) (dayMs : Int) : Int :=
  Int.fdiv (utcMidnight t) dayMs

/-- One entry of a day group: the record together with
`buildDate.getTime()`, as pushed by the grouping loop. -/
structure Timed where
  build : Build
  timestamp : Int
deriving DecidableEq

/-- One entry of the `buildsByDay` map: the UTC day key, the age in
days recorded when the group was created (`day` in the source; the
same value for every record of the day), and the day's records in
input order. -/
structure DayGroup where
  dayKey : Int
  day : Int
  tbuilds : List Timed
deriving DecidableEq

/-- Insert one dated record into the day-group list, extending the
group with the same key or creating a fresh group.  The JS `Map`
appends later records of a day after earlier ones; here the list is
built back-to-front, so the record is consed onto the front of its
group, preserving input order within each group.  The position at
which a *new* group appears differs from the map's insertion order,
but the groups are sorted by their (distinct) keys before they are
processed, so the processed sequence coincides with the source's. -/
def consGroup (key day : Int) (tb : Timed) : List DayGroup → List DayGroup
  | [] => [⟨key, day, [tb]⟩]
  | g :: gs =>
    if g.dayKey = key then ⟨g.dayKey, g.day, tb :: g.tbuilds⟩ :: gs
    else g :: consGroup key day tb gs

/-- The first loop of `applyRetentionPolicy`: stable releases and
undated records go straight to `kept` (in input order); every dated
prerelease record is grouped by its build-day key, tagged with its
timestamp, and the group records its age in days from `now`
(`ageDays = max(0, nowDayKey - buildDayKey)`, then once more clamped
to `day = max(0, ageDays)` as in the source). -/
def collectGroups (nowDayKey : Int) : List Build → List Build × List DayGroup
  | [] => ([], [])
  | b :: bs =>
    let r := collectGroups nowDayKey bs
    if !(jsTruthy b.prerelease) then
      (b :: r.1, r.2)
    else
      match getBuildDate b with
      | none => (b :: r.1, r.2)
      | some buildDate =>
        let buildDayKey := toDayKey buildDate ONE_DAY
        let ageDays := max 0 (nowDayKey - buildDayKey)
        let day := max 0 ageDays
        (r.1, consGroup buildDayKey day ⟨b, buildDate⟩ r.2)

/-- Comparator of the per-day sort
`dailyBuilds.sort((a, b) => b.timestamp - a.timestamp)`: descending by
timestamp (stable on ties). -/
def timedGE (a b : Timed) : Prop := b.timestamp ≤ a.timestamp

instance : DecidableRel timedGE :=
  fun a b => decidable_of_iff (b.timestamp ≤ a.timestamp) Iff.rfl

instance : IsTotal Timed timedGE :=
  ⟨fun a b => (le_total b.timestamp a.timestamp).elim Or.inl Or.inr⟩

instance : IsTrans Timed timedGE :=
  ⟨fun _ _ _ h1 h2 => le_trans h2 h1⟩

/-- Comparator of the group-key sort
`[...buildsByDay.keys()].sort((a, b) => a - b)`: ascending day key. -/
def groupLE (a b : DayGroup) : Prop := a.dayKey ≤ b.dayKey

instance : DecidableRel groupLE :=
  fun a b => decidable_of_iff (a.dayKey ≤ b.dayKey) Iff.rfl

instance : IsTotal DayGroup groupLE :=
  ⟨fun a b => (le_total a.dayKey b.dayKey).elim Or.inl Or.inr⟩

instance : IsTrans DayGroup groupLE :=
  ⟨fun _ _ _ h1 h2 => le_trans h1 h2⟩

/-- The body of the per-day loop of `applyRetentionPolicy`: returns the
day's contributions to `kept` and `removed`, in push order.  Within a
band the day's primary build (head of the descending timestamp sort)
is kept iff the *day key* is divisible by the band modulus; the extras
(`rest`) are always removed past 30 days; past 450 days everything is
removed.  The final fall-through arm (no band matched) mirrors the
source, where such a record would be pushed to neither array; it is
unreachable because `day ≥ 0`. -/
def processGroup (g : DayGroup) : List Build × List Build :=
  let dailyBuilds := List.insertionSort timedGE g.tbuilds
  match dailyBuilds with
  | [] => ([], [])
  | latest :: restT =>
    let latestInDay := latest.build
    let rest := restT.map Timed.build
    if g.day < 30 then
      ((latest :: restT).map Timed.build, [])
    else if 30 ≤ g.day ∧ g.day < 90 then
      if g.dayKey % 2 = 0 then ([latestInDay], rest)
      else ([], rest ++ [latestInDay])
    else if 90 ≤ g.day ∧ g.day < 210 then
      if g.dayKey % 4 = 0 then ([latestInDay], rest)
      else ([], rest ++ [latestInDay])
    else if 210 ≤ g.day ∧ g.day < 450 then
      if g.dayKey % 8 = 0 then ([latestInDay], rest)
      else ([], rest ++ [latestInDay])
    else if 450 ≤ g.day then
      ([], rest ++ [latestInDay])
    else
      ([], rest)

/-- `applyRetentionPolicy` of `src/prune-data.mjs` (the authoritative,
day-truncated revision): partition `builds` into kept and removed
given the current time `now` (a millisecond timestamp). -/
def applyRetentionPolicy (builds : List Build) (now : Int) : List Build × List Build :=
  let nowDayKey := toDayKey now ONE_DAY
  let r := collectGroups nowDayKey builds
  let days := List.insertionSort groupLE r.2
  (r.1 ++ (days.map (fun g => (processGroup g).1)).flatten,
   (days.map (fun g => (processGroup g).2)).flatten)

/-! ## The historical millisecond-age revision (`src/unnamed/part_002`)

That revision groups prerelease records by their *age in days*
(`Math.floor((now - created_at) / ONE_DAY)`, clamped at 0) instead of
by absolute day key, reads `created_at` directly (no `getBuildDate`
fallback and no undated guard), sorts a day's records by
`created_at.localeCompare` descending, and applies the band moduli to
the *age* instead of the day key.

A record without a parsable `created_at` makes `new Date(...)` NaN
there; the NaN age propagates so that every band comparison is false
and the group's primary record is pushed to neither output array.
That is modelled by an `Option Int` age (`none` = NaN), with every
comparison against `none` false.  For records with an ISO-8601 UTC
`created_at`, `localeCompare` order coincides with timestamp order;
`msCreatedDesc` compares the modelled timestamps (defaulting an absent
`created_at` to 0; on such records the historical code would throw
inside the comparator, which a total model cannot reproduce — the
theorems evaluate this revision only on dated records). -/

/-- A group of the millisecond-age revision: the `buildsByDay` key is
the clamped age in days (`none` models a NaN age). -/
structure MsGroup where
  day : Option Int
  builds : List Build
deriving DecidableEq

/-- Insert a record into the age-keyed group list (see `consGroup`). -/
def msConsGroup (key : Option Int) (b : Build) : List MsGroup → List MsGroup
  | [] => [⟨key, [b]⟩]
  | g :: gs =>
    if g.day = key then ⟨g.day, b :: g.builds⟩ :: gs
    else g :: msConsGroup key b gs

/-- Grouping loop of the millisecond-age revision. -/
def msCollectGroups (now : Int) : List Build → List Build × List MsGroup
  | [] => ([], [])
  | b :: bs =>
    let r := msCollectGroups now bs
    if !(jsTruthy b.prerelease) then
      (b :: r.1, r.2)
    else
      let day : Option Int :=
        match b.created_at with
        | some t => some (max 0 (Int.fdiv (now - t) ONE_DAY))
        | none => none
      (r.1, msConsGroup day b r.2)

/-- Comparator `(a, b) => b.created_at.localeCompare(a.created_at)`,
modelled on the parsed timestamps (see the section comment). -/
def msCreatedDesc (a b : Build) : Prop :=
  b.created_at.getD 0 ≤ a.created_at.getD 0

instance : DecidableRel msCreatedDesc :=
  fun a b => decidable_of_iff (b.created_at.getD 0 ≤ a.created_at.getD 0) Iff.rfl

/-- Ascending order on the age keys; the NaN group is placed last
(its position among the groups is unspecified in JS, and immaterial
to the outputs evaluated by the theorems). -/
def msGroupLE (a b : MsGroup) : Prop :=
  match a.day, b.day with
  | some x, some y => x ≤ y
  | some _, none => True
  | none, _ => False

instance : DecidableRel msGroupLE := by
  intro a b
  unfold msGroupLE
  match a.day, b.day with
  | some x, some y => exact inferInstanceAs (Decidable (x ≤ y))
  | some _, none => exact inferInstanceAs (Decidable True)
  | none, _ => exact inferInstanceAs (Decidable False)

/-- `some d < c`; a NaN (`none`) age compares false. -/
def oLt (o : Option Int) (c : Int) : Bool :=
  match o with
  | some d => decide (d < c)
  | none => false

/-- `c ≤ some d`; a NaN (`none`) age compares false. -/
def oGe (o : Option Int) (c : Int) : Bool :=
  match o with
  | some d => decide (c ≤ d)
  | none => false

/-- `some d % m === 0`; false for a NaN (`none`) age. -/
def oModZero (o : Option Int) (m : Int) : Bool :=
  match o with
  | some d => decide (d % m = 0)
  | none => false

/-- Per-day loop body of the millisecond-age revision: bands and
moduli are applied to the group's age key itself. -/
def msProcessGroup (g : MsGroup) : List Build × List Build :=
  let dailyBuilds := List.insertionSort msCreatedDesc g.builds
  match dailyBuilds with
  | [] => ([], [])
  | latest :: restT =>
    if oLt g.day 30 then
      (latest :: restT, [])
    else if oGe g.day 30 && oLt g.day 90 then
      if oModZero g.day 2 then ([latest], restT)
      else ([], restT ++ [latest])
    else if oGe g.day 90 && oLt g.day 210 then
      if oModZero g.day 4 then ([latest], restT)
      else ([], restT ++ [latest])
    else if oGe g.day 210 && oLt g.day 450 then
      if oModZero g.day 8 then ([latest], restT)
      else ([], restT ++ [latest])
    else if oGe g.day 450 then
      ([], restT ++ [latest])
    else
      ([], restT)

/-- `applyRetentionPolicy` of the historical millisecond-age revision
(`src/unnamed/part_002`). -/
def msApplyRetentionPolicy (builds : List Build) (now : Int) : List Build × List Build :=
  let r := msCollectGroups now builds
  let days := List.insertionSort msGroupLE r.2
  (r.1 ++ (days.map (fun g => (msProcessGroup g).1)).flatten,
   (days.map (fun g => (msProcessGroup g).2)).flatten)

/-! ## Lemmas about the grouping phase -/

/-- A record is kept by the first loop without entering a day group:
it is a stable release (falsy `prerelease`) or has no resolvable
date. -/
def earlyKeep (b : Build) : Bool :=
  !(jsTruthy b.prerelease) || (getBuildDate b).isNone

/-- The `kept` array after the first loop is exactly the input records
that are stable or undated, in input order. -/
theorem collectGroups_fst (k : Int) (bs : List Build) :
    (collectGroups k bs).1 = bs.filter earlyKeep := by
  induction bs with
  | nil => rfl
  | cons b bs ih =>
    simp only [collectGroups]
    cases hp : jsTruthy b.prerelease with
    | false =>
      simp [hp, List.filter_cons, earlyKeep, ih]
    | true =>
      cases hd : getBuildDate b with
      | none => simp [hp, hd, List.filter_cons, earlyKeep, ih]
      | some t => simp [hp, hd, List.filter_cons, earlyKeep, ih]

/-- Invariant of every day group built by the first loop: the recorded
age is determined by the group key, the group is nonempty, and every
entry is a dated prerelease record whose date has the group's key. -/
def GoodGroup (k : Int) (g : DayGroup) : Prop :=
  g.day = max 0 (k - g.dayKey) ∧ g.tbuilds ≠ [] ∧
    ∀ tb ∈ g.tbuilds, jsTruthy tb.build.prerelease = true ∧
      getBuildDate tb.build = some tb.timestamp ∧
      toDayKey tb.timestamp ONE_DAY = g.dayKey

theorem consGroup_good {k key day : Int} {tb : Timed} {gs : List DayGroup}
    (hgs : ∀ g ∈ gs, GoodGroup k g)
    (hday : day = max 0 (k - key))
    (htb : jsTruthy tb.build.prerelease = true ∧
      getBuildDate tb.build = some tb.timestamp ∧
      toDayKey tb.timestamp ONE_DAY = key) :
    ∀ g ∈ consGroup key day tb gs, GoodGroup k g := by
  induction gs with
  | nil =>
    intro g hg
    simp only [consGroup, List.mem_singleton] at hg
    subst hg
    refine ⟨hday, by simp, ?_⟩
    intro tb' htb'
    simp only [List.mem_singleton] at htb'
    subst htb'
    exact htb
  | cons g0 gs ih =>
    intro g hg
    simp only [consGroup] at hg
    by_cases hk : g0.dayKey = key
    · rw [if_pos hk] at hg
      rcases List.mem_cons.mp hg with hg | hg
      · subst hg
        have hg0 := hgs g0 (List.mem_cons_self g0 gs)
        refine ⟨hg0.1, by simp, ?_⟩
        intro tb' htb'
        rcases List.mem_cons.mp htb' with h | h
        · subst h; exact ⟨htb.1, htb.2.1, hk ▸ htb.2.2⟩
        · exact hg0.2.2 tb' h
      · exact hgs g (List.mem_cons_of_mem g0 hg)
    · rw [if_neg hk] at hg
      rcases List.mem_cons.mp hg with hg | hg
      · subst hg; exact hgs g (List.mem_cons_self g gs)
      · exact ih (fun g' hg' => hgs g' (List.mem_cons_of_mem g0 hg')) g hg

/-- Every group produced by the first loop satisfies `GoodGroup`. -/
theorem collectGroups_good (k : Int) (bs : List Build) :
    ∀ g ∈ (collectGroups k bs).2, GoodGroup k g := by
  induction bs with
  | nil => intro g hg; cases hg
  | cons b bs ih =>
    intro g hg
    simp only [collectGroups] at hg
    cases hp : jsTruthy b.prerelease with
    | false => rw [hp] at hg; simp at hg; exact ih g hg
    | true =>
      rw [hp] at hg
      cases hd : getBuildDate b with
      | none => rw [hd] at hg; simp at hg; exact ih g hg
      | some t =>
        rw [hd] at hg
        simp only [Bool.not_true] at hg
        refine consGroup_good ih ?_ ?_ g hg
        · omega
        · exact ⟨hp, hd, rfl⟩

/-- Key membership after an insertion. -/
theorem consGroup_key_mem {key day : Int} {tb : Timed} {gs : List DayGroup} (x : Int) :
    x ∈ (consGroup key day tb gs).map DayGroup.dayKey ↔
      x ∈ gs.map DayGroup.dayKey ∨ x = key := by
  induction gs with
  | nil => simp [consGroup]
  | cons g0 gs ih =>
    simp only [consGroup]
    by_cases hk : g0.dayKey = key
    · rw [if_pos hk]
      simp only [List.map_cons, List.mem_cons]
      constructor
      · rintro (h | h)
        · exact Or.inl (Or.inl h)
        · exact Or.inl (Or.inr h)
      · rintro ((h | h) | h)
        · exact Or.inl h
        · exact Or.inr h
        · exact Or.inl (hk ▸ h)
    · rw [if_neg hk]
      simp only [List.map_cons, List.mem_cons, ih]
      tauto

/-- Insertion preserves distinctness of the group keys. -/
theorem consGroup_keys_nodup {key day : Int} {tb : Timed} {gs : List DayGroup}
    (h : (gs.map DayGroup.dayKey).Nodup) :
    ((consGroup key day tb gs).map DayGroup.dayKey).Nodup := by
  induction gs with
  | nil => simp [consGroup]
  | cons g0 gs ih =>
    simp only [consGroup]
    rw [List.map_cons, List.nodup_cons] at h
    by_cases hk : g0.dayKey = key
    · rw [if_pos hk]
      simp only [List.map_cons, List.nodup_cons]
      exact ⟨h.1, h.2⟩
    · rw [if_neg hk]
      simp only [List.map_cons, List.nodup_cons]
      refine ⟨?_, ih h.2⟩
      rw [consGroup_key_mem]
      rintro (hmem | heq)
      · exact h.1 hmem
      · exact hk heq

/-- The group keys produced by the first loop are pairwise distinct. -/
theorem collectGroups_keys_nodup (k : Int) (bs : List Build) :
    (((collectGroups k bs).2).map DayGroup.dayKey).Nodup := by
  induction bs with
  | nil => simp [collectGroups]
  | cons b bs ih =>
    simp only [collectGroups]
    cases hp : jsTruthy b.prerelease with
    | false => simpa using ih
    | true =>
      cases hd : getBuildDate b with
      | none => simpa [hd] using ih
      | some t =>
        simp only [hd, Bool.not_true]
        exact consGroup_keys_nodup ih

/-- The inserted entry is present in the group carrying its key. -/
theorem consGroup_self_mem (key day : Int) (tb : Timed) (gs : List DayGroup) :
    ∃ g ∈ consGroup key day tb gs, g.dayKey = key ∧ tb ∈ g.tbuilds := by
  induction gs with
  | nil => exact ⟨⟨key, day, [tb]⟩, by simp [consGroup]⟩
  | cons g0 gs ih =>
    simp only [consGroup]
    by_cases hk : g0.dayKey = key
    · rw [if_pos hk]
      exact ⟨⟨g0.dayKey, g0.day, tb :: g0.tbuilds⟩, List.mem_cons_self _ _, hk, List.mem_cons_self _ _⟩
    · rw [if_neg hk]
      obtain ⟨g, hg, hkey, hmem⟩ := ih
      exact ⟨g, List.mem_cons_of_mem g0 hg, hkey, hmem⟩

/-- Insertion preserves (up to enlargement) every existing group. -/
theorem consGroup_preserve {key day : Int} {tb : Timed} {gs : List DayGroup}
    {g : DayGroup} (hg : g ∈ gs) :
    ∃ g' ∈ consGroup key day tb gs, g'.dayKey = g.dayKey ∧
      ∀ x ∈ g.tbuilds, x ∈ g'.tbuilds := by
  induction gs with
  | nil => cases hg
  | cons g0 gs ih =>
    simp only [consGroup]
    by_cases hk : g0.dayKey = key
    · rw [if_pos hk]
      rcases List.mem_cons.mp hg with h | h
      · subst h
        exact ⟨⟨g.dayKey, g.day, tb :: g.tbuilds⟩, List.mem_cons_self _ _, rfl,
          fun x hx => List.mem_cons_of_mem tb hx⟩
      · exact ⟨g, List.mem_cons_of_mem _ h, rfl, fun x hx => hx⟩
    · rw [if_neg hk]
      rcases List.mem_cons.mp hg with h | h
      · subst h
        exact ⟨g, List.mem_cons_self _ _, rfl, fun x hx => hx⟩
      · obtain ⟨g', hg', hkey, hsub⟩ := ih h
        exact ⟨g', List.mem_cons_of_mem g0 hg', hkey, hsub⟩

/-- Every dated prerelease record lands in the group of its build-day
key, paired with its resolved timestamp. -/
theorem collectGroups_mem_group {k : Int} {bs : List Build} {b : Build} {t : Int}
    (hb : b ∈ bs) (hp : jsTruthy b.prerelease = true) (hd : getBuildDate b = some t) :
    ∃ g ∈ (collectGroups k bs).2, g.dayKey = toDayKey t ONE_DAY ∧
      (⟨b, t⟩ : Timed) ∈ g.tbuilds := by
  induction bs with
  | nil => cases hb
  | cons b0 bs ih =>
    simp only [collectGroups]
    rcases List.mem_cons.mp hb with hb0 | hbs
    · subst hb0
      rw [hp, hd]
      simp only [Bool.not_true]
      exact consGroup_self_mem _ _ _ _
    · cases hp0 : jsTruthy b0.prerelease with
      | false =>
        simp only [hp0, Bool.not_false, if_pos]
        exact ih hbs
      | true =>
        cases hd0 : getBuildDate b0 with
        | none =>
          simp only [hp0, Bool.not_true, if_neg]
          obtain ⟨g, hg, hkey, hmem⟩ := ih hbs
          exact ⟨g, hg, hkey, hmem⟩
        | some t0 =>
          simp only [hp0, Bool.not_true]
          obtain ⟨g, hg, hkey, hmem⟩ := ih hbs
          obtain ⟨g', hg', hkey', hsub⟩ := consGroup_preserve hg
          exact ⟨g', hg', hkey' ▸ hkey, hsub _ hmem⟩

/-- The dated prerelease entries of the input, in input order, paired
with their resolved timestamps. -/
def datedEntries (bs : List Build) : List Timed :=
  bs.filterMap (fun b =>
    if jsTruthy b.prerelease then (getBuildDate b).map (fun t => ⟨b, t⟩) else none)

theorem consGroup_flatten_perm (key day : Int) (tb : Timed) (gs : List DayGroup) :
    (((consGroup key day tb gs).map DayGroup.tbuilds).flatten).Perm
      (tb :: (gs.map DayGroup.tbuilds).flatten) := by
  induction gs with
  | nil => simp [consGroup]
  | cons g0 gs ih =>
    simp only [consGroup]
    by_cases hk : g0.dayKey = key
    · rw [if_pos hk]
      simp
    · rw [if_neg hk]
      simp only [List.map_cons, List.flatten_cons]
      exact (ih.append_left g0.tbuilds).trans List.perm_middle

/-- All grouped entries together are a permutation of the dated
prerelease entries of the input. -/
theorem collectGroups_flatten_perm (k : Int) (bs : List Build) :
    ((((collectGroups k bs).2).map DayGroup.tbuilds).flatten).Perm (datedEntries bs) := by
  induction bs with
  | nil => simp [collectGroups, datedEntries]
  | cons b bs ih =>
    simp only [collectGroups, datedEntries, List.filterMap_cons]
    cases hp : jsTruthy b.prerelease with
    | false => simpa [hp] using ih
    | true =>
      cases hd : getBuildDate b with
      | none => simpa [hp, hd] using ih
      | some t =>
        simp only [hp, hd, Bool.not_true, Option.map_some, if_pos]
        exact (consGroup_flatten_perm _ _ _ _).trans (ih.cons _)

/-! ## Changing `now`: the groups change only in their recorded age -/

/-- Recompute a group's age field against another "now" day key. -/
def reday (k' : Int) (g : DayGroup) : DayGroup :=
  ⟨g.dayKey, max 0 (k' - g.dayKey), g.tbuilds⟩

theorem consGroup_reday (k' key dayK : Int) (tb : Timed) (gs : List DayGroup) :
    consGroup key (max 0 (k' - key)) tb (gs.map (reday k')) =
      (consGroup key dayK tb gs).map (reday k') := by
  induction gs with
  | nil => simp [consGroup, reday]
  | cons g0 gs ih =>
    simp only [consGroup, List.map_cons, reday]
    by_cases hk : g0.dayKey = key
    · rw [if_pos hk, if_pos hk]
      simp [reday]
    · rw [if_neg hk, if_neg hk]
      simp only [List.map_cons, reday]
      rw [ih]

/-- The first loop under a different "now" produces the same early-kept
list and the same groups, with only the age fields recomputed. -/
theorem collectGroups_shift (k k' : Int) (bs : List Build) :
    (collectGroups k' bs).1 = (collectGroups k bs).1 ∧
      (collectGroups k' bs).2 = ((collectGroups k bs).2).map (reday k') := by
  induction bs with
  | nil => exact ⟨rfl, rfl⟩
  | cons b bs ih =>
    simp only [collectGroups]
    cases hp : jsTruthy b.prerelease with
    | false =>
      simp only [Bool.not_false, if_true]
      exact ⟨by rw [ih.1], ih.2⟩
    | true =>
      cases hd : getBuildDate b with
      | none =>
        simp only [Bool.not_true, Bool.false_eq_true, if_false]
        exact ⟨by rw [ih.1], ih.2⟩
      | some t =>
        simp only [Bool.not_true, Bool.false_eq_true, if_false]
        refine ⟨ih.1, ?_⟩
        rw [ih.2]
        have hmax : max 0 (max 0 (k' - toDayKey t ONE_DAY)) =
            max 0 (k' - toDayKey t ONE_DAY) := by omega
        rw [hmax]
        exact consGroup_reday k' (toDayKey t ONE_DAY)
          (max 0 (max 0 (k - toDayKey t ONE_DAY))) ⟨b, t⟩ _

/-! ## Sorting lemmas -/

theorem orderedInsert_map {α β : Type} (f : α → β) (r : β → β → Prop) (s : α → α → Prop)
    [DecidableRel r] [DecidableRel s] (hrs : ∀ a b, r (f a) (f b) ↔ s a b) (a : α)
    (l : List α) :
    List.orderedInsert r (f a) (l.map f) = (List.orderedInsert s a l).map f := by
  induction l with
  | nil => rfl
  | cons b t ih =>
    simp only [List.map_cons, List.orderedInsert]
    by_cases h : s a b
    · rw [if_pos ((hrs a b).mpr h), if_pos h, List.map_cons, List.map_cons]
    · rw [if_neg (fun hr => h ((hrs a b).mp hr)), if_neg h, List.map_cons, ih]

/-- A stable sort of a mapped list is the mapped stable sort, when the
comparator factors through the map. -/
theorem insertionSort_map {α β : Type} (f : α → β) (r : β → β → Prop) (s : α → α → Prop)
    [DecidableRel r] [DecidableRel s] (hrs : ∀ a b, r (f a) (f b) ↔ s a b)
    (l : List α) :
    List.insertionSort r (l.map f) = (List.insertionSort s l).map f := by
  induction l with
  | nil => rfl
  | cons b t ih =>
    simp only [List.map_cons, List.insertionSort]
    rw [ih, orderedInsert_map f r s hrs]

/-! ## Lemmas about the per-day loop -/

/-- The keep decision for a day's primary build once past the recency
window: the band of the age selects the modulus, which is applied to
the day key; past 450 days nothing is kept. -/
def keepPrimary (dayKey day : Int) : Bool :=
  if 30 ≤ day ∧ day < 90 then decide (dayKey % 2 = 0)
  else if 90 ≤ day ∧ day < 210 then decide (dayKey % 4 = 0)
  else if 210 ≤ day ∧ day < 450 then decide (dayKey % 8 = 0)
  else false

/-- In the recency window the whole group is kept (in sorted order)
and nothing is removed. -/
theorem processGroup_lt30 {g : DayGroup} (hday : g.day < 30) :
    processGroup g = ((List.insertionSort timedGE g.tbuilds).map Timed.build, []) := by
  simp only [processGroup]
  cases h : List.insertionSort timedGE g.tbuilds with
  | nil => simp
  | cons latest restT => simp [hday]

/-- Past the recency window only the primary build can be kept, and
it is kept exactly when `keepPrimary` says so; everything else is
removed, the primary last. -/
theorem processGroup_ge30 {g : DayGroup} {latest : Timed} {restT : List Timed}
    (hsort : List.insertionSort timedGE g.tbuilds = latest :: restT)
    (hday : 30 ≤ g.day) :
    processGroup g =
      ((if keepPrimary g.dayKey g.day then [latest.build] else []),
        restT.map Timed.build ++
          (if keepPrimary g.dayKey g.day then [] else [latest.build])) := by
  simp only [processGroup, hsort]
  have h30 : ¬ g.day < 30 := by omega
  rw [if_neg h30]
  unfold keepPrimary
  by_cases h1 : 30 ≤ g.day ∧ g.day < 90
  · rw [if_pos h1, if_pos h1]
    by_cases hm : g.dayKey % 2 = 0
    · simp [hm]
    · simp [hm]
  · rw [if_neg h1, if_neg h1]
    by_cases h2 : 90 ≤ g.day ∧ g.day < 210
    · rw [if_pos h2, if_pos h2]
      by_cases hm : g.dayKey % 4 = 0
      · simp [hm]
      · simp [hm]
    · rw [if_neg h2, if_neg h2]
      by_cases h3 : 210 ≤ g.day ∧ g.day < 450
      · rw [if_pos h3, if_pos h3]
        by_cases hm : g.dayKey % 8 = 0
        · simp [hm]
        · simp [hm]
      · rw [if_neg h3, if_neg h3]
        have h4 : 450 ≤ g.day := by omega
        rw [if_pos h4]
        simp

/-- The two contributions of a day group together are a permutation of
the group's records: the loop neither loses nor duplicates records
(the fall-through arm is unreachable for every integer age, since ages
below 30 take the recency branch). -/
theorem processGroup_perm {g : DayGroup} :
    ((processGroup g).1 ++ (processGroup g).2).Perm (g.tbuilds.map Timed.build) := by
  cases h : List.insertionSort timedGE g.tbuilds with
  | nil =>
    have hperm := List.perm_insertionSort timedGE g.tbuilds
    rw [h] at hperm
    have hnil : g.tbuilds = [] := hperm.symm.eq_nil
    simp [processGroup, h, hnil]
  | cons latest restT =>
    have hperm := List.perm_insertionSort timedGE g.tbuilds
    rw [h] at hperm
    have hmap : ((latest :: restT).map Timed.build).Perm (g.tbuilds.map Timed.build) :=
      hperm.map _
    by_cases h30 : g.day < 30
    · rw [processGroup_lt30 h30, h]
      simpa using hmap
    · have hge : 30 ≤ g.day := by omega
      rw [processGroup_ge30 h hge]
      by_cases hk : keepPrimary g.dayKey g.day
      · simp only [if_pos hk, List.append_nil]
        simpa using hmap
      · simp only [if_neg hk, List.nil_append]
        exact (List.perm_append_singleton _ _).trans hmap

/-- Every record a day group contributes to `kept` is one of the
group's records. -/
theorem processGroup_mem_fst {g : DayGroup} {b : Build}
    (hb : b ∈ (processGroup g).1) : ∃ tb ∈ g.tbuilds, tb.build = b := by
  have hm : b ∈ g.tbuilds.map Timed.build :=
    processGroup_perm.mem_iff.mp (List.mem_append_left _ hb)
  exact List.mem_map.mp hm

/-- Every record a day group contributes to `removed` is one of the
group's records. -/
theorem processGroup_mem_snd {g : DayGroup} {b : Build}
    (hb : b ∈ (processGroup g).2) : ∃ tb ∈ g.tbuilds, tb.build = b := by
  have hm : b ∈ g.tbuilds.map Timed.build :=
    processGroup_perm.mem_iff.mp (List.mem_append_right _ hb)
  exact List.mem_map.mp hm

/-! ## Membership in the engine's outputs -/

theorem mem_kept_iff {builds : List Build} {now : Int} {b : Build} :
    b ∈ (applyRetentionPolicy builds now).1 ↔
      (b ∈ builds ∧ earlyKeep b = true) ∨
        ∃ g ∈ (collectGroups (toDayKey now ONE_DAY) builds).2,
          b ∈ (processGroup g).1 := by
  unfold applyRetentionPolicy
  simp only [List.mem_append, List.mem_flatten, List.mem_map]
  rw [collectGroups_fst]
  constructor
  · rintro (h | ⟨l, ⟨g, hg, rfl⟩, hmem⟩)
    · exact Or.inl (List.mem_filter.mp h)
    · exact Or.inr ⟨g, (List.perm_insertionSort groupLE _).mem_iff.mp hg, hmem⟩
  · rintro (⟨hb, he⟩ | ⟨g, hg, hmem⟩)
    · exact Or.inl (List.mem_filter.mpr ⟨hb, he⟩)
    · exact Or.inr ⟨(processGroup g).1,
        ⟨g, (List.perm_insertionSort groupLE _).mem_iff.mpr hg, rfl⟩, hmem⟩

theorem mem_removed_iff {builds : List Build} {now : Int} {b : Build} :
    b ∈ (applyRetentionPolicy builds now).2 ↔
      ∃ g ∈ (collectGroups (toDayKey now ONE_DAY) builds).2,
        b ∈ (processGroup g).2 := by
  unfold applyRetentionPolicy
  simp only [List.mem_flatten, List.mem_map]
  constructor
  · rintro ⟨l, ⟨g, hg, rfl⟩, hmem⟩
    exact ⟨g, (List.perm_insertionSort groupLE _).mem_iff.mp hg, hmem⟩
  · rintro ⟨g, hg, hmem⟩
    exact ⟨(processGroup g).2,
      ⟨g, (List.perm_insertionSort groupLE _).mem_iff.mpr hg, rfl⟩, hmem⟩

/-! ## The output partition -/

theorem flatten_append_perm {α β : Type} (f h : α → List β) (l : List α) :
    ((l.map f).flatten ++ (l.map h).flatten).Perm
      ((l.map (fun g => f g ++ h g)).flatten) := by
  induction l with
  | nil => simp
  | cons g l ih =>
    simp only [List.map_cons, List.flatten_cons]
    rw [List.append_assoc]
    refine ((List.perm_append_comm_assoc _ _ _).append_left (f g)).trans ?_
    rw [← List.append_assoc (f g) (h g)]
    exact ih.append_left _

theorem flatten_map_perm_of_forall {α β : Type} {l : List α} {f h : α → List β}
    (hp : ∀ g ∈ l, (f g).Perm (h g)) :
    ((l.map f).flatten).Perm ((l.map h).flatten) := by
  induction l with
  | nil => simp
  | cons a l ih =>
    simp only [List.map_cons, List.flatten_cons]
    exact (hp a (List.mem_cons_self a l)).append
      (ih (fun g hg => hp g (List.mem_cons_of_mem a hg)))

theorem datedEntries_map_build (bs : List Build) :
    (datedEntries bs).map Timed.build =
      bs.filter (fun b => jsTruthy b.prerelease && (getBuildDate b).isSome) := by
  induction bs with
  | nil => rfl
  | cons b bs ih =>
    simp only [datedEntries, List.filterMap_cons, List.filter_cons]
    cases hp : jsTruthy b.prerelease with
    | false => simpa [hp] using ih
    | true =>
      cases hd : getBuildDate b with
      | none => simpa [hp, hd] using ih
      | some t => simpa [hp, hd] using ih

/-- The two outputs of the engine are, together, a permutation of the
input list. -/
theorem applyRetentionPolicy_perm (builds : List Build) (now : Int) :
    ((applyRetentionPolicy builds now).1 ++ (applyRetentionPolicy builds now).2).Perm
      builds := by
  unfold applyRetentionPolicy
  rw [List.append_assoc]
  have hKR :
      (((List.insertionSort groupLE (collectGroups (toDayKey now ONE_DAY) builds).2).map
          (fun g => (processGroup g).1)).flatten ++
        ((List.insertionSort groupLE (collectGroups (toDayKey now ONE_DAY) builds).2).map
          (fun g => (processGroup g).2)).flatten).Perm
        (builds.filter (fun b => jsTruthy b.prerelease && (getBuildDate b).isSome)) := by
    refine (flatten_append_perm _ _ _).trans ?_
    refine (flatten_map_perm_of_forall (fun g _ => processGroup_perm)).trans ?_
    refine (((List.perm_insertionSort groupLE _).map
      (fun g => g.tbuilds.map Timed.build)).flatten).trans ?_
    have h3 : (((collectGroups (toDayKey now ONE_DAY) builds).2).map
        (fun g => g.tbuilds.map Timed.build)).flatten =
        ((((collectGroups (toDayKey now ONE_DAY) builds).2).map
          DayGroup.tbuilds).flatten).map Timed.build := by
      rw [List.map_flatten, List.map_map]
      rfl
    rw [h3, ← datedEntries_map_build]
    exact (collectGroups_flatten_perm _ builds).map Timed.build
  refine (hKR.append_left _).trans ?_
  rw [collectGroups_fst]
  have hc : builds.filter (fun b => jsTruthy b.prerelease && (getBuildDate b).isSome) =
      builds.filter (fun b => !(earlyKeep b)) := by
    refine List.filter_congr ?_
    intro b _
    unfold earlyKeep
    cases hp : jsTruthy b.prerelease <;> cases hd : getBuildDate b <;> simp
  rw [hc]
  exact List.filter_append_perm earlyKeep builds

/-! ## Claim theorems -/

/-- C3.  Partition completeness: `applyRetentionPolicy` returns a
partition of its input — kept and removed together are a permutation
of the input (so every record, counted with multiplicity, appears in
exactly one output), the lengths add up, and when the input records
are pairwise distinct (distinct JS objects), the two outputs are
duplicate-free and disjoint. -/
theorem partition_completeness (builds : List Build) (now : Int) :
    ((applyRetentionPolicy builds now).1 ++ (applyRetentionPolicy builds now).2).Perm
        builds ∧
      (applyRetentionPolicy builds now).1.length +
          (applyRetentionPolicy builds now).2.length = builds.length ∧
      (builds.Nodup →
        (applyRetentionPolicy builds now).1.Nodup ∧
          (applyRetentionPolicy builds now).2.Nodup ∧
          (applyRetentionPolicy builds now).1.Disjoint
            (applyRetentionPolicy builds now).2) := by
  have hperm := applyRetentionPolicy_perm builds now
  refine ⟨hperm, ?_, ?_⟩
  · have hlen := hperm.length_eq
    simpa [List.length_append] using hlen
  · intro hnd
    have hx : ((applyRetentionPolicy builds now).1 ++
        (applyRetentionPolicy builds now).2).Nodup := hperm.nodup_iff.mpr hnd
    exact List.nodup_append.mp hx

/-- C3 witness: the partition theorem applied to a two-record input
with distinct records, discharging the `Nodup` hypothesis. -/
theorem partition_completeness_witness :
    ([(⟨some "a", some true, some 0, 0⟩ : Build), ⟨some "b", some false, some 7, 1⟩] :
        List Build).Nodup ∧
      ((applyRetentionPolicy
            [⟨some "a", some true, some 0, 0⟩, ⟨some "b", some false, some 7, 1⟩] 0).1.Nodup ∧
        (applyRetentionPolicy
            [⟨some "a", some true, some 0, 0⟩, ⟨some "b", some false, some 7, 1⟩] 0).2.Nodup ∧
        (applyRetentionPolicy
            [⟨some "a", some true, some 0, 0⟩, ⟨some "b", some false, some 7, 1⟩] 0).1.Disjoint
          (applyRetentionPolicy
            [⟨some "a", some true, some 0, 0⟩, ⟨some "b", some false, some 7, 1⟩] 0).2) :=
  ⟨by decide,
    (partition_completeness
        [⟨some "a", some true, some 0, 0⟩, ⟨some "b", some false, some 7, 1⟩] 0).2.2
      (by decide)⟩

/-- C4.  Stable-release invariant: a record whose `prerelease` field is
the boolean `false` is unconditionally kept, for every `now`. -/
theorem stable_release_invariant (builds : List Build) (now : Int) (b : Build)
    (hb : b ∈ builds) (hp : b.prerelease = some false) :
    b ∈ (applyRetentionPolicy builds now).1 := by
  rw [mem_kept_iff]
  exact Or.inl ⟨hb, by simp [earlyKeep, jsTruthy, hp]⟩

/-- C4 witness: a 500-day-old stable release is kept. -/
theorem stable_release_invariant_witness :
    (⟨some "old-stable", some false, some 0, 0⟩ : Build) ∈
        [(⟨some "old-stable", some false, some 0, 0⟩ : Build)] ∧
      (⟨some "old-stable", some false, some 0, 0⟩ : Build).prerelease = some false ∧
      (⟨some "old-stable", some false, some 0, 0⟩ : Build) ∈
        (applyRetentionPolicy [⟨some "old-stable", some false, some 0, 0⟩]
          (500 * 86400000)).1 :=
  ⟨by decide, by decide,
    stable_release_invariant [⟨some "old-stable", some false, some 0, 0⟩]
      (500 * 86400000) _ (by decide) (by decide)⟩

/-- C10.  Implicit behaviour of the `!b.prerelease` test: any record
whose `prerelease` field is falsy — the boolean `false`, or an absent
or `undefined` field — is unconditionally kept, for every `now`. -/
theorem falsy_prerelease_kept (builds : List Build) (now : Int) (b : Build)
    (hb : b ∈ builds) (hp : jsTruthy b.prerelease = false) :
    b ∈ (applyRetentionPolicy builds now).1 := by
  rw [mem_kept_iff]
  exact Or.inl ⟨hb, by simp [earlyKeep, hp]⟩

/-- C10 witness: a 500-day-old record with *no* `prerelease` field is
kept via the stable branch. -/
theorem falsy_prerelease_kept_witness :
    (⟨some "no-flag", none, some 0, 0⟩ : Build) ∈
        [(⟨some "no-flag", none, some 0, 0⟩ : Build)] ∧
      jsTruthy (⟨some "no-flag", none, some 0, 0⟩ : Build).prerelease = false ∧
      (⟨some "no-flag", none, some 0, 0⟩ : Build) ∈
        (applyRetentionPolicy [⟨some "no-flag", none, some 0, 0⟩] (500 * 86400000)).1 :=
  ⟨by decide, by decide,
    falsy_prerelease_kept [⟨some "no-flag", none, some 0, 0⟩] (500 * 86400000) _
      (by decide) (by decide)⟩

/-- C7.  Undated-keep invariant: a prerelease record whose date cannot
be resolved (`created_at` absent or unparsable and `build_number` not
starting with a valid `YYYY-MM-DD`, i.e. `getBuildDate` returns
`null`) is kept for every `now`; the engine is total, so no input
aborts the batch. -/
theorem undated_keep_invariant (builds : List Build) (now : Int) (b : Build)
    (hb : b ∈ builds) (hd : getBuildDate b = none) :
    b ∈ (applyRetentionPolicy builds now).1 := by
  rw [mem_kept_iff]
  exact Or.inl ⟨hb, by simp [earlyKeep, hd]⟩

/-- C7 witness: the spec's concrete scenario — a sole prerelease
record `{build_number: "experimental-foo"}` with no `created_at` is
kept and nothing is removed. -/
theorem undated_keep_invariant_witness :
    getBuildDate ⟨some "experimental-foo", some true, none, 0⟩ = none ∧
      (⟨some "experimental-foo", some true, none, 0⟩ : Build) ∈
        [(⟨some "experimental-foo", some true, none, 0⟩ : Build)] ∧
      (⟨some "experimental-foo", some true, none, 0⟩ : Build) ∈
        (applyRetentionPolicy [⟨some "experimental-foo", some true, none, 0⟩] 0).1 ∧
      applyRetentionPolicy [⟨some "experimental-foo", some true, none, 0⟩] 0 =
        ([⟨some "experimental-foo", some true, none, 0⟩], []) :=
  ⟨by decide, by decide,
    undated_keep_invariant [⟨some "experimental-foo", some true, none, 0⟩] 0 _
      (by decide) (by decide),
    by decide⟩

/-- C5.  Recency invariant: a prerelease record whose resolved date
gives `ageDays = max(0, nowDayKey - buildDayKey) < 30` is kept —
including every extra record sharing the same day (the statement
applies to each such record). -/
theorem recency_invariant (builds : List Build) (now : Int) (b : Build) (t : Int)
    (hb : b ∈ builds) (hp : jsTruthy b.prerelease = true)
    (hd : getBuildDate b = some t)
    (hage : max 0 (toDayKey now ONE_DAY - toDayKey t ONE_DAY) < 30) :
    b ∈ (applyRetentionPolicy builds now).1 := by
  obtain ⟨g, hg, hkey, hmem⟩ :=
    @collectGroups_mem_group (toDayKey now ONE_DAY) builds b t hb hp hd
  have hgood := collectGroups_good (toDayKey now ONE_DAY) builds g hg
  have hday : g.day < 30 := by rw [hgood.1, hkey]; exact hage
  rw [mem_kept_iff]
  refine Or.inr ⟨g, hg, ?_⟩
  rw [processGroup_lt30 hday]
  have hmem' : (⟨b, t⟩ : Timed) ∈ List.insertionSort timedGE g.tbuilds :=
    (List.perm_insertionSort timedGE g.tbuilds).mem_iff.mpr hmem
  exact List.mem_map.mpr ⟨⟨b, t⟩, hmem', rfl⟩

/-- C5 witness: two prerelease builds of the same 10-day-old day —
both the primary and the extra are kept. -/
theorem recency_invariant_witness :
    (⟨some "b", some true, some 0, 1⟩ : Build) ∈
        [(⟨some "a", some true, some 1000, 0⟩ : Build), ⟨some "b", some true, some 0, 1⟩] ∧
      jsTruthy (⟨some "b", some true, some 0, 1⟩ : Build).prerelease = true ∧
      getBuildDate ⟨some "b", some true, some 0, 1⟩ = some 0 ∧
      max 0 (toDayKey (10 * 86400000) ONE_DAY - toDayKey 0 ONE_DAY) < 30 ∧
      (⟨some "b", some true, some 0, 1⟩ : Build) ∈
        (applyRetentionPolicy
          [⟨some "a", some true, some 1000, 0⟩, ⟨some "b", some true, some 0, 1⟩]
          (10 * 86400000)).1 :=
  ⟨by decide, by decide, by decide, by decide,
    recency_invariant
      [⟨some "a", some true, some 1000, 0⟩, ⟨some "b", some true, some 0, 1⟩]
      (10 * 86400000) _ 0 (by decide) (by decide) (by decide) (by decide)⟩

/-- C6 counterexample: the claim quantifies over *all* builds, but a
stable release (`prerelease = false`) that is 450 days old is kept,
not removed — the stable-release rule wins over the cutoff. -/
theorem cutoff_claim_counterexample :
    450 ≤ max 0 (toDayKey (450 * 86400000) ONE_DAY - toDayKey (0 : Int) ONE_DAY) ∧
      (⟨some "2020-01-01", some false, some 0, 0⟩ : Build) ∉
        (applyRetentionPolicy [⟨some "2020-01-01", some false, some 0, 0⟩]
          (450 * 86400000)).2 :=
  ⟨by decide, by decide⟩

/-- C6 amended: every *prerelease* build with a resolvable date and
`ageDays ≥ 450` is removed, regardless of the day-key modulus. -/
theorem cutoff_invariant (builds : List Build) (now : Int) (b : Build) (t : Int)
    (hb : b ∈ builds) (hp : jsTruthy b.prerelease = true)
    (hd : getBuildDate b = some t)
    (hage : 450 ≤ max 0 (toDayKey now ONE_DAY - toDayKey t ONE_DAY)) :
    b ∈ (applyRetentionPolicy builds now).2 := by
  obtain ⟨g, hg, hkey, hmem⟩ :=
    @collectGroups_mem_group (toDayKey now ONE_DAY) builds b t hb hp hd
  have hgood := collectGroups_good (toDayKey now ONE_DAY) builds g hg
  have hday : 450 ≤ g.day := by rw [hgood.1, hkey]; exact hage
  have hmem' : (⟨b, t⟩ : Timed) ∈ List.insertionSort timedGE g.tbuilds :=
    (List.perm_insertionSort timedGE g.tbuilds).mem_iff.mpr hmem
  cases hs : List.insertionSort timedGE g.tbuilds with
  | nil => rw [hs] at hmem'; cases hmem'
  | cons latest restT =>
    have hkp : keepPrimary g.dayKey g.day = false := by
      unfold keepPrimary
      rw [if_neg (by omega), if_neg (by omega), if_neg (by omega)]
    rw [mem_removed_iff]
    refine ⟨g, hg, ?_⟩
    rw [processGroup_ge30 hs (by omega)]
    simp only [hkp, Bool.false_eq_true, if_false]
    rw [hs] at hmem'
    rcases List.mem_cons.mp hmem' with h | h
    · refine List.mem_append_right _ ?_
      rw [← h]
      exact List.mem_singleton.mpr rfl
    · exact List.mem_append_left _ (List.mem_map.mpr ⟨_, h, rfl⟩)

/-- C6 amended witness: a 460-day-old prerelease on an even day key
divisible by 8 is still removed. -/
theorem cutoff_invariant_witness :
    (⟨some "x", some true, some 0, 0⟩ : Build) ∈
        [(⟨some "x", some true, some 0, 0⟩ : Build)] ∧
      jsTruthy (⟨some "x", some true, some 0, 0⟩ : Build).prerelease = true ∧
      getBuildDate ⟨some "x", some true, some 0, 0⟩ = some 0 ∧
      450 ≤ max 0 (toDayKey (460 * 86400000) ONE_DAY - toDayKey 0 ONE_DAY) ∧
      (⟨some "x", some true, some 0, 0⟩ : Build) ∈
        (applyRetentionPolicy [⟨some "x", some true, some 0, 0⟩] (460 * 86400000)).2 :=
  ⟨by decide, by decide, by decide, by decide,
    cutoff_invariant [⟨some "x", some true, some 0, 0⟩] (460 * 86400000) _ 0
      (by decide) (by decide) (by decide) (by decide)⟩

/-- C8.  Determinism and purity, as far as a functional model can
express them: the engine is a function of `(builds, now)` alone, so
two runs on identical inputs give identical results; and each output
consists of input records verbatim (the engine copies records into the
outputs without editing any field). -/
theorem engine_pure_function (builds : List Build) (now : Int) :
    applyRetentionPolicy builds now = applyRetentionPolicy builds now ∧
      (∀ b ∈ (applyRetentionPolicy builds now).1, b ∈ builds) ∧
      (∀ b ∈ (applyRetentionPolicy builds now).2, b ∈ builds) := by
  refine ⟨rfl, ?_, ?_⟩
  · intro b hb
    exact (applyRetentionPolicy_perm builds now).mem_iff.mp (List.mem_append_left _ hb)
  · intro b hb
    exact (applyRetentionPolicy_perm builds now).mem_iff.mp (List.mem_append_right _ hb)

/-- C8 witness: the purity theorem applied at a concrete input. -/
theorem engine_pure_function_witness :
    (⟨some "w", some true, some 0, 0⟩ : Build) ∈
        (applyRetentionPolicy [⟨some "w", some true, some 0, 0⟩] 0).1 ∧
      (⟨some "w", some true, some 0, 0⟩ : Build) ∈
        [(⟨some "w", some true, some 0, 0⟩ : Build)] :=
  ⟨by decide,
    (engine_pure_function [⟨some "w", some true, some 0, 0⟩] 0).2.1 _ (by decide)⟩

/-- C9.  The two published revisions of `applyRetentionPolicy` are not
equivalent: on a single prerelease build created at UTC midnight of
epoch day 969, evaluated at UTC midnight of epoch day 1001 (age 32
days, odd day key), the authoritative day-truncated revision removes
the build (day key 969 is odd) while the millisecond-age revision
keeps it (age 32 is even). -/
theorem revisions_not_equivalent :
    applyRetentionPolicy [⟨some "a", some true, some (969 * 86400000), 0⟩]
        (1001 * 86400000) ≠
      msApplyRetentionPolicy [⟨some "a", some true, some (969 * 86400000), 0⟩]
        (1001 * 86400000) := by
  decide

/-- Distinct keys identify the groups. -/
theorem group_eq_of_key_eq {gs : List DayGroup}
    (hnd : (gs.map DayGroup.dayKey).Nodup) {g g' : DayGroup}
    (hg : g ∈ gs) (hg' : g' ∈ gs) (hk : g.dayKey = g'.dayKey) : g = g' :=
  List.inj_on_of_nodup_map hnd hg hg' hk

/-- Equivalence between the Boolean keep decision and the spec's
band/modulus disjunction, for groups past the recency window. -/
theorem keepPrimary_iff {dayKey day : Int} (hday : 30 ≤ day) :
    keepPrimary dayKey day = true ↔
      ((30 ≤ day ∧ day < 90 ∧ dayKey % 2 = 0) ∨
        (90 ≤ day ∧ day < 210 ∧ dayKey % 4 = 0) ∨
        (210 ≤ day ∧ day < 450 ∧ dayKey % 8 = 0)) := by
  unfold keepPrimary
  split_ifs with h1 h2 h3 <;> simp only [decide_eq_true_eq, Bool.false_eq_true, false_iff] <;>
    omega

/-- C2.  Thinning bands: for a day group whose age is at least 30
days, the primary build is the head of the stable descending-timestamp
sort (it carries the maximal timestamp of its day); every other record
of the group is removed; and the primary build is kept exactly when
the group's day key is evenly divisible by the modulus of its age band
(2 for [30, 90), 4 for [90, 210), 8 for [210, 450)); at 450 days and
beyond (and in any band on a non-divisible key) it is removed. -/
theorem thinning_bands (builds : List Build) (now : Int) (g : DayGroup)
    (hg : g ∈ (collectGroups (toDayKey now ONE_DAY) builds).2)
    (hday : 30 ≤ g.day)
    (latest : Timed) (restT : List Timed)
    (hsort : List.insertionSort timedGE g.tbuilds = latest :: restT) :
    (∀ tb ∈ g.tbuilds, tb.timestamp ≤ latest.timestamp) ∧
      (∀ tb ∈ restT, tb.build ∈ (applyRetentionPolicy builds now).2) ∧
      (latest.build ∈ (applyRetentionPolicy builds now).1 ↔
        ((30 ≤ g.day ∧ g.day < 90 ∧ g.dayKey % 2 = 0) ∨
          (90 ≤ g.day ∧ g.day < 210 ∧ g.dayKey % 4 = 0) ∨
          (210 ≤ g.day ∧ g.day < 450 ∧ g.dayKey % 8 = 0))) ∧
      (¬((30 ≤ g.day ∧ g.day < 90 ∧ g.dayKey % 2 = 0) ∨
          (90 ≤ g.day ∧ g.day < 210 ∧ g.dayKey % 4 = 0) ∨
          (210 ≤ g.day ∧ g.day < 450 ∧ g.dayKey % 8 = 0)) →
        latest.build ∈ (applyRetentionPolicy builds now).2) := by
  have hgood := collectGroups_good (toDayKey now ONE_DAY) builds g hg
  have hnd := collectGroups_keys_nodup (toDayKey now ONE_DAY) builds
  have hsorted := List.sorted_insertionSort timedGE g.tbuilds
  rw [hsort, List.sorted_cons] at hsorted
  have hperm := List.perm_insertionSort timedGE g.tbuilds
  rw [hsort] at hperm
  have hlatest_mem : latest ∈ g.tbuilds := hperm.mem_iff.mp (List.mem_cons_self _ _)
  have hlfacts := hgood.2.2 latest hlatest_mem
  refine ⟨?_, ?_, ?_, ?_⟩
  · intro tb htb
    rcases List.mem_cons.mp (hperm.mem_iff.mpr htb) with h | h
    · rw [h]
    · exact hsorted.1 tb h
  · intro tb htb
    rw [mem_removed_iff]
    refine ⟨g, hg, ?_⟩
    rw [processGroup_ge30 hsort hday]
    exact List.mem_append_left _ (List.mem_map.mpr ⟨tb, htb, rfl⟩)
  · rw [← keepPrimary_iff hday]
    constructor
    · intro hk
      rcases mem_kept_iff.mp hk with ⟨_, he⟩ | ⟨g', hg', hmem⟩
      · exfalso
        unfold earlyKeep at he
        rw [hlfacts.1, hlfacts.2.1] at he
        simp at he
      · obtain ⟨tb', htb', heq⟩ := processGroup_mem_fst hmem
        have hfacts' := (collectGroups_good (toDayKey now ONE_DAY) builds g' hg').2.2 tb' htb'
        have hts : tb'.timestamp = latest.timestamp := by
          have h1 := hfacts'.2.1
          rw [heq, hlfacts.2.1] at h1
          exact (Option.some_injective _ h1).symm
        have hkeq : g'.dayKey = g.dayKey := by
          rw [← hfacts'.2.2, hts, hlfacts.2.2]
        have hgeq : g' = g := group_eq_of_key_eq hnd hg' hg hkeq
        rw [hgeq] at hmem
        rw [processGroup_ge30 hsort hday] at hmem
        by_contra hkp
        rw [Bool.not_eq_true] at hkp
        rw [hkp] at hmem
        simp at hmem
    · intro hk
      rw [mem_kept_iff]
      refine Or.inr ⟨g, hg, ?_⟩
      rw [processGroup_ge30 hsort hday, hk]
      simp
  · rw [← keepPrimary_iff hday]
    intro hkp
    rw [Bool.not_eq_true] at hkp
    rw [mem_removed_iff]
    refine ⟨g, hg, ?_⟩
    rw [processGroup_ge30 hsort hday, hkp]
    simp

/-- C2 witness: a 32-day-old day (key 968, even) with two builds —
the extra is removed, the primary kept; the theorem is applied to the
concretely computed group. -/
theorem thinning_bands_witness :
    ((⟨968, 32,
        [⟨⟨some "a", some true, some (968 * 86400000 + 1000), 0⟩, 968 * 86400000 + 1000⟩,
         ⟨⟨some "b", some true, some (968 * 86400000), 1⟩, 968 * 86400000⟩]⟩ : DayGroup) ∈
        (collectGroups (toDayKey (1000 * 86400000) ONE_DAY)
          [⟨some "a", some true, some (968 * 86400000 + 1000), 0⟩,
           ⟨some "b", some true, some (968 * 86400000), 1⟩]).2) ∧
      (⟨some "b", some true, some (968 * 86400000), 1⟩ : Build) ∈
        (applyRetentionPolicy
          [⟨some "a", some true, some (968 * 86400000 + 1000), 0⟩,
           ⟨some "b", some true, some (968 * 86400000), 1⟩] (1000 * 86400000)).2 ∧
      (⟨some "a", some true, some (968 * 86400000 + 1000), 0⟩ : Build) ∈
        (applyRetentionPolicy
          [⟨some "a", some true, some (968 * 86400000 + 1000), 0⟩,
           ⟨some "b", some true, some (968 * 86400000), 1⟩] (1000 * 86400000)).1 :=
  ⟨by decide,
    (thinning_bands
        [⟨some "a", some true, some (968 * 86400000 + 1000), 0⟩,
         ⟨some "b", some true, some (968 * 86400000), 1⟩] (1000 * 86400000)
        ⟨968, 32,
          [⟨⟨some "a", some true, some (968 * 86400000 + 1000), 0⟩, 968 * 86400000 + 1000⟩,
           ⟨⟨some "b", some true, some (968 * 86400000), 1⟩, 968 * 86400000⟩]⟩
        (by decide) (by decide)
        ⟨⟨some "a", some true, some (968 * 86400000 + 1000), 0⟩, 968 * 86400000 + 1000⟩
        [⟨⟨some "b", some true, some (968 * 86400000), 1⟩, 968 * 86400000⟩]
        (by decide)).2.1
      ⟨⟨some "b", some true, some (968 * 86400000), 1⟩, 968 * 86400000⟩ (by decide),
    ((thinning_bands
        [⟨some "a", some true, some (968 * 86400000 + 1000), 0⟩,
         ⟨some "b", some true, some (968 * 86400000), 1⟩] (1000 * 86400000)
        ⟨968, 32,
          [⟨⟨some "a", some true, some (968 * 86400000 + 1000), 0⟩, 968 * 86400000 + 1000⟩,
           ⟨⟨some "b", some true, some (968 * 86400000), 1⟩, 968 * 86400000⟩]⟩
        (by decide) (by decide)
        ⟨⟨some "a", some true, some (968 * 86400000 + 1000), 0⟩, 968 * 86400000 + 1000⟩
        [⟨⟨some "b", some true, some (968 * 86400000), 1⟩, 968 * 86400000⟩]
        (by decide)).2.2.1).mpr (by decide)⟩

/-! ## Cross-day stability -/

theorem toDayKey_one_day (t : Int) : toDayKey t ONE_DAY = Int.fdiv t 86400000 := by
  show Int.fdiv (Int.fdiv t 86400000 * 86400000) (1000 * 60 * 60 * 24) = Int.fdiv t 86400000
  norm_num

/-- Advancing `now` by exactly one day advances the "now" day key by
exactly one. -/
theorem toDayKey_add_one (t : Int) :
    toDayKey (t + ONE_DAY) ONE_DAY = toDayKey t ONE_DAY + 1 := by
  rw [toDayKey_one_day, toDayKey_one_day]
  rw [Int.fdiv_eq_ediv _ (by norm_num), Int.fdiv_eq_ediv _ (by norm_num)]
  have h : ONE_DAY = 86400000 := by norm_num [ONE_DAY]
  rw [h]
  omega

/-- The age band of the retention policy: 0 for the recency window,
1/2/3 for the three thinning bands, 4 past the hard cutoff. -/
def ageBand (day : Int) : Nat :=
  if day < 30 then 0
  else if day < 90 then 1
  else if day < 210 then 2
  else if day < 450 then 3
  else 4

/-- Two ages of the same band satisfy exactly the same band tests of
the per-day loop. -/
theorem ageBand_conds {day d' : Int} (h : ageBand day = ageBand d') :
    (day < 30 ↔ d' < 30) ∧
      ((30 ≤ day ∧ day < 90) ↔ (30 ≤ d' ∧ d' < 90)) ∧
      ((90 ≤ day ∧ day < 210) ↔ (90 ≤ d' ∧ d' < 210)) ∧
      ((210 ≤ day ∧ day < 450) ↔ (210 ≤ d' ∧ d' < 450)) ∧
      (450 ≤ day ↔ 450 ≤ d') := by
  unfold ageBand at h
  split_ifs at h <;> omega

/-- A group's contributions depend on its age only through the age's
band: replacing the age by any age of the same band leaves the loop
body's output unchanged. -/
theorem processGroup_band_congr {g : DayGroup} {d' : Int}
    (hband : ageBand g.day = ageBand d') :
    processGroup ⟨g.dayKey, d', g.tbuilds⟩ = processGroup g := by
  obtain ⟨e1, e2, e3, e4, e5⟩ := ageBand_conds hband
  simp only [processGroup]
  cases hs : List.insertionSort timedGE g.tbuilds with
  | nil => rfl
  | cons latest restT =>
    simp only [e1, e2, e3, e4, e5]

/-- C1.  Cross-day stability: for a fixed build list, a record whose
age band is the same when evaluated at `now` and at `now + 1 day`
(vacuously so for stable or undated records) has the same kept status
and the same removed status in both runs — the keep decision of a
dated prerelease build depends only on its own day key and its band. -/
theorem cross_day_stability (builds : List Build) (now : Int) (b : Build)
    (hb : b ∈ builds)
    (hband : ∀ t, getBuildDate b = some t →
      ageBand (max 0 (toDayKey now ONE_DAY - toDayKey t ONE_DAY)) =
        ageBand (max 0 (toDayKey (now + ONE_DAY) ONE_DAY - toDayKey t ONE_DAY))) :
    (b ∈ (applyRetentionPolicy builds now).1 ↔
        b ∈ (applyRetentionPolicy builds (now + ONE_DAY)).1) ∧
      (b ∈ (applyRetentionPolicy builds now).2 ↔
        b ∈ (applyRetentionPolicy builds (now + ONE_DAY)).2) := by
  have hshift := collectGroups_shift (toDayKey now ONE_DAY) (toDayKey now ONE_DAY + 1) builds
  have hnd := collectGroups_keys_nodup (toDayKey now ONE_DAY) builds
  -- membership at `now + ONE_DAY`, expressed over the groups of `now`
  have hkept' : b ∈ (applyRetentionPolicy builds (now + ONE_DAY)).1 ↔
      (b ∈ builds ∧ earlyKeep b = true) ∨
        ∃ g ∈ (collectGroups (toDayKey now ONE_DAY) builds).2,
          b ∈ (processGroup (reday (toDayKey now ONE_DAY + 1) g)).1 := by
    rw [mem_kept_iff, toDayKey_add_one, hshift.2]
    simp only [List.mem_map]
    constructor
    · rintro (h | ⟨g', ⟨g, hg, rfl⟩, hmem⟩)
      · exact Or.inl h
      · exact Or.inr ⟨g, hg, hmem⟩
    · rintro (h | ⟨g, hg, hmem⟩)
      · exact Or.inl h
      · exact Or.inr ⟨reday (toDayKey now ONE_DAY + 1) g, ⟨g, hg, rfl⟩, hmem⟩
  have hrem' : b ∈ (applyRetentionPolicy builds (now + ONE_DAY)).2 ↔
      ∃ g ∈ (collectGroups (toDayKey now ONE_DAY) builds).2,
        b ∈ (processGroup (reday (toDayKey now ONE_DAY + 1) g)).2 := by
    rw [mem_removed_iff, toDayKey_add_one, hshift.2]
    simp only [List.mem_map]
    constructor
    · rintro ⟨g', ⟨g, hg, rfl⟩, hmem⟩
      exact ⟨g, hg, hmem⟩
    · rintro ⟨g, hg, hmem⟩
      exact ⟨reday (toDayKey now ONE_DAY + 1) g, ⟨g, hg, rfl⟩, hmem⟩
  cases hearly : earlyKeep b with
  | true =>
    -- kept in both runs via the early branch; in neither removed set
    have hnotrem : ∀ g ∈ (collectGroups (toDayKey now ONE_DAY) builds).2,
        ∀ tb ∈ g.tbuilds, tb.build ≠ b := by
      intro g hg tb htb heq
      have hfacts := (collectGroups_good (toDayKey now ONE_DAY) builds g hg).2.2 tb htb
      unfold earlyKeep at hearly
      rw [heq] at hfacts
      rw [hfacts.1, hfacts.2.1] at hearly
      simp at hearly
    constructor
    · rw [hkept', mem_kept_iff]
      exact iff_of_true (Or.inl ⟨hb, hearly⟩) (Or.inl ⟨hb, hearly⟩)
    · rw [hrem', mem_removed_iff]
      constructor
      · rintro ⟨g, hg, hmem⟩
        obtain ⟨tb, htb, heq⟩ := processGroup_mem_snd hmem
        exact absurd heq (hnotrem g hg tb htb)
      · rintro ⟨g, hg, hmem⟩
        obtain ⟨tb, htb, heq⟩ := processGroup_mem_snd hmem
        exact absurd heq (hnotrem g hg tb htb)
  | false =>
    -- b is a dated prerelease record
    have hp : jsTruthy b.prerelease = true := by
      unfold earlyKeep at hearly
      cases h : jsTruthy b.prerelease
      · rw [h] at hearly; simp at hearly
      · rfl
    obtain ⟨t, hd⟩ : ∃ t, getBuildDate b = some t := by
      unfold earlyKeep at hearly
      cases h : getBuildDate b with
      | none => rw [h] at hearly; simp at hearly
      | some t => exact ⟨t, rfl⟩
    obtain ⟨g0, hg0, hkey0, hmem0⟩ :=
      @collectGroups_mem_group (toDayKey now ONE_DAY) builds b t hb hp hd
    -- any group contributing b has the key of b's day
    have hkeyed : ∀ g ∈ (collectGroups (toDayKey now ONE_DAY) builds).2,
        ∀ tb ∈ g.tbuilds, tb.build = b → g = g0 := by
      intro g hg tb htb heq
      have hfacts := (collectGroups_good (toDayKey now ONE_DAY) builds g hg).2.2 tb htb
      rw [heq, hd] at hfacts
      have hts : tb.timestamp = t := Option.some_injective _ hfacts.2.1.symm
      refine group_eq_of_key_eq hnd hg hg0 ?_
      rw [hkey0, ← hfacts.2.2, hts]
    -- the outputs of b's group agree between the two runs
    have hPG : processGroup (reday (toDayKey now ONE_DAY + 1) g0) = processGroup g0 := by
      have hd0 : g0.day = max 0 (toDayKey now ONE_DAY - g0.dayKey) :=
        (collectGroups_good (toDayKey now ONE_DAY) builds g0 hg0).1
      have hb' := hband t hd
      rw [toDayKey_add_one] at hb'
      show processGroup ⟨g0.dayKey, max 0 (toDayKey now ONE_DAY + 1 - g0.dayKey), g0.tbuilds⟩ =
        processGroup g0
      refine processGroup_band_congr ?_
      rw [hd0, hkey0]
      exact hb'
    have hdropped : earlyKeep b = true → False := by
      intro h; rw [hearly] at h; cases h
    constructor
    · rw [hkept', mem_kept_iff]
      constructor
      · rintro (⟨_, he⟩ | ⟨g, hg, hmem⟩)
        · exact absurd he hdropped
        · obtain ⟨tb, htb, heq⟩ := processGroup_mem_fst hmem
          have hgeq := hkeyed g hg tb htb heq
          rw [hgeq] at hmem
          rw [← hPG] at hmem
          exact Or.inr ⟨g0, hg0, hmem⟩
      · rintro (⟨_, he⟩ | ⟨g, hg, hmem⟩)
        · exact absurd he hdropped
        · obtain ⟨tb, htb, heq⟩ := processGroup_mem_fst hmem
          have hgeq := hkeyed g hg tb htb heq
          rw [hgeq, hPG] at hmem
          exact Or.inr ⟨g0, hg0, hmem⟩
    · rw [hrem', mem_removed_iff]
      constructor
      · rintro ⟨g, hg, hmem⟩
        obtain ⟨tb, htb, heq⟩ := processGroup_mem_snd hmem
        have hgeq := hkeyed g hg tb htb heq
        rw [hgeq] at hmem
        rw [← hPG] at hmem
        exact ⟨g0, hg0, hmem⟩
      · rintro ⟨g, hg, hmem⟩
        obtain ⟨tb, htb, heq⟩ := processGroup_mem_snd hmem
        have hgeq := hkeyed g hg tb htb heq
        rw [hgeq, hPG] at hmem
        exact ⟨g0, hg0, hmem⟩

/-- C1 witness: the spec's parity-stability scenario — a prerelease
build 40 days old keeps its (removed, odd key) status at `now` and at
`now + 1 day`; both hypotheses are discharged concretely. -/
theorem cross_day_stability_witness :
    ((⟨some "a", some true, some (961 * 86400000), 0⟩ : Build) ∈
        [(⟨some "a", some true, some (961 * 86400000), 0⟩ : Build)]) ∧
      ageBand (max 0 (toDayKey (1001 * 86400000) ONE_DAY -
          toDayKey (961 * 86400000) ONE_DAY)) =
        ageBand (max 0 (toDayKey (1001 * 86400000 + ONE_DAY) ONE_DAY -
          toDayKey (961 * 86400000) ONE_DAY)) ∧
      ((⟨some "a", some true, some (961 * 86400000), 0⟩ : Build) ∈
          (applyRetentionPolicy [⟨some "a", some true, some (961 * 86400000), 0⟩]
            (1001 * 86400000)).2 ↔
        (⟨some "a", some true, some (961 * 86400000), 0⟩ : Build) ∈
          (applyRetentionPolicy [⟨some "a", some true, some (961 * 86400000), 0⟩]
            (1001 * 86400000 + ONE_DAY)).2) :=
  ⟨by decide, by decide,
    (cross_day_stability [⟨some "a", some true, some (961 * 86400000), 0⟩]
        (1001 * 86400000) ⟨some "a", some true, some (961 * 86400000), 0⟩
        (by decide)
        (fun t ht => by
          have hts : t = 961 * 86400000 := by
            have hgb : getBuildDate ⟨some "a", some true, some (961 * 86400000), 0⟩ =
                some (961 * 86400000) := by decide
            rw [hgb] at ht
            exact (Option.some_injective _ ht).symm
          rw [hts]
          decide)).2⟩

/-! Sanity checks of the embedding on concrete inputs (kept as
compile-time examples). -/

example : daysFromCivil 1970 1 1 = 0 := by decide

example : daysFromCivil 2022 8 27 = 19231 := by decide

example :
    getBuildDate ⟨some "2022-08-27-0456", some true, none, 0⟩ =
      some (19231 * 86400000) := by decide

example : getBuildDate ⟨some "experimental-foo", some true, none, 0⟩ = none := by decide

example : getBuildDate ⟨some "2022-13-05", some true, none, 0⟩ = none := by decide

-- A stable release is kept regardless of age.
example :
    applyRetentionPolicy [⟨some "a", some false, some 0, 0⟩] (500 * 86400000) =
      ([⟨some "a", some false, some 0, 0⟩], []) := by decide

-- A 32-day-old prerelease on an odd day key is removed.
example :
    applyRetentionPolicy [⟨some "a", some true, some (969 * 86400000), 0⟩]
        (1001 * 86400000) =
      ([], [⟨some "a", some true, some (969 * 86400000), 0⟩]) := by decide

-- The same input under the millisecond revision: even age, so kept.
example :
    msApplyRetentionPolicy [⟨some "a", some true, some (969 * 86400000), 0⟩]
        (1001 * 86400000) =
      ([⟨some "a", some true, some (969 * 86400000), 0⟩], []) := by decide

-- Two builds on one 32-day-old even day: primary kept, extra removed.
example :
    applyRetentionPolicy
        [⟨some "a", some true, some (968 * 86400000 + 1000), 0⟩,
         ⟨some "b", some true, some (968 * 86400000), 1⟩]
        (1000 * 86400000) =
      ([⟨some "a", some true, some (968 * 86400000 + 1000), 0⟩],
       [⟨some "b", some true, some (968 * 86400000), 1⟩]) := by decide
